import Mathlib

/-!
Verification development for the GraphRepo static dependency driller
(`graphrepo/drillers/deps.py`).

The Python code is shallowly embedded: every string/path manipulation the
driller performs (Python `str.strip`, `str.split`, `str.replace`, slicing,
`pathlib.Path` parsing, joining, `suffix`, `with_suffix`, `as_posix`) is
given an executable Lean counterpart modelled on the CPython semantics the
code relies on (POSIX flavour paths, ASCII text).  External collaborators
that perform I/O (tree-sitter parsing, Neo4j queries, `get_path_hashes`)
are abstracted as function parameters of the embedded operations, exactly
at the call boundary the Python code uses them.
-/

namespace GraphRepo

/-! ### Characters and lowercasing (Python `str.lower` on ASCII) -/

theorem uint32_toNat_ofNat (n : Nat) : (UInt32.ofNat n).toNat = n % 4294967296 := by
  simp [UInt32.ofNat, UInt32.toNat, BitVec.toNat_ofNat]

/-- ASCII lowercasing of one character, as Python `str.lower` acts on ASCII. -/
def lowChar (c : Char) : Char :=
  if h : 65 ≤ c.toNat ∧ c.toNat ≤ 90 then
    ⟨UInt32.ofNat (c.toNat + 32), Or.inl (by rw [uint32_toNat_ofNat]; omega)⟩
  else c

theorem lowChar_toNat_of_upper (c : Char) (h : 65 ≤ c.toNat ∧ c.toNat ≤ 90) :
    (lowChar c).toNat = c.toNat + 32 := by
  unfold lowChar
  rw [dif_pos h]
  show (UInt32.ofNat (c.toNat + 32)).toNat = c.toNat + 32
  rw [uint32_toNat_ofNat]
  omega

theorem lowChar_eq_of_not_upper (c : Char) (h : ¬(65 ≤ c.toNat ∧ c.toNat ≤ 90)) :
    lowChar c = c := by
  unfold lowChar; rw [dif_neg h]

theorem lowChar_not_upper (c : Char) : ¬(65 ≤ (lowChar c).toNat ∧ (lowChar c).toNat ≤ 90) := by
  by_cases h : 65 ≤ c.toNat ∧ c.toNat ≤ 90
  · rw [lowChar_toNat_of_upper c h]; omega
  · rw [lowChar_eq_of_not_upper c h]; exact h

/-- Python `s.lower()` restricted to ASCII case mapping. -/
def pyLower (s : String) : String := String.mk (s.data.map lowChar)

/-- A string with no ASCII uppercase letter, the sense in which the
extracted keywords are lowercase. -/
def isLowerStr (s : String) : Prop := ∀ c ∈ s.data, ¬(65 ≤ c.toNat ∧ c.toNat ≤ 90)

theorem pyLower_isLower (s : String) : isLowerStr (pyLower s) := by
  intro c hc
  simp only [pyLower, List.mem_map] at hc
  obtain ⟨d, _, rfl⟩ := hc
  exact lowChar_not_upper d

/-! ### Python `str.strip`, slicing, `startswith` -/

/-- Python whitespace characters recognised by `str.strip()` (ASCII part). -/
def isWSChar (c : Char) : Bool :=
  c = ' ' || c = '\t' || c = '\n' || c.toNat = 13 || c.toNat = 11 || c.toNat = 12

/-- Strip characters satisfying `p` from both ends of a character list. -/
def stripList (p : Char → Bool) (l : List Char) : List Char :=
  ((l.dropWhile p).reverse.dropWhile p).reverse

/-- Python `s.strip()` (whitespace). -/
def pyStrip (s : String) : String := String.mk (stripList isWSChar s.data)

/-- Python `s.strip("\"'")`. -/
def pyStripQuotes (s : String) : String :=
  String.mk (stripList (fun c => c = '"' || c.toNat = 39) s.data)

/-- Python `s[1:]` (drop the first character). -/
def strDrop1 (s : String) : String := String.mk (s.data.drop 1)

def listStarts : List Char → List Char → Bool
  | _, [] => true
  | [], _ :: _ => false
  | c :: cs, p :: ps => c = p && listStarts cs ps

/-- Python `s.startswith(pre)`. -/
def strStarts (s pre : String) : Bool := listStarts s.data pre.data

theorem listStarts_cons (c : Char) (cs : List Char) (p : Char) (ps : List Char) :
    listStarts (c :: cs) (p :: ps) = (decide (c = p) && listStarts cs ps) := rfl

theorem listStarts_append (l pre : List Char) (h : listStarts l pre = true) :
    ∃ rest, l = pre ++ rest := by
  induction pre generalizing l with
  | nil => exact ⟨l, rfl⟩
  | cons p ps ih =>
    match l with
    | [] =>
      have hf : listStarts ([] : List Char) (p :: ps) = false := rfl
      rw [hf] at h
      exact Bool.noConfusion h
    | c :: cs =>
      rw [listStarts_cons] at h
      simp only [Bool.and_eq_true, decide_eq_true_eq] at h
      obtain ⟨rfl, h2⟩ := h
      obtain ⟨rest, hrest⟩ := ih cs h2
      exact ⟨rest, by simp [hrest]⟩

theorem strStarts_data (s pre : String) (h : strStarts s pre = true) :
    ∃ rest, s.data = pre.data ++ rest :=
  listStarts_append s.data pre.data h

/-! ### Splitting on `/` and joining, modelling `pathlib` component handling -/

/-- Split a character list on the separator `/`, Python `str.split("/")`
semantics: `""` gives `[""]`, separators at the ends give empty segments. -/
def splitOnSlash : List Char → List (List Char)
  | [] => [[]]
  | c :: cs =>
    if c = '/' then [] :: splitOnSlash cs
    else
      match splitOnSlash cs with
      | [] => [[c]]
      | t :: ts => (c :: t) :: ts

/-- The segments of a string between `/` separators. -/
def splitSlashStr (s : String) : List String := (splitOnSlash s.data).map String.mk

/-- Join path components with `/` (the string produced by `as_posix` for a
relative path with those parts). -/
def joinSlash : List String → String
  | [] => ""
  | [p] => p
  | p :: ps => p ++ "/" ++ joinSlash ps

/-- A component that contains no `/`. -/
def noSlash (s : String) : Bool := !s.data.contains '/'

theorem splitOnSlash_slash (cs : List Char) :
    splitOnSlash ('/' :: cs) = [] :: splitOnSlash cs := by
  conv_lhs => unfold splitOnSlash
  rw [if_pos rfl]

theorem splitOnSlash_cons_ns (c : Char) (cs : List Char) (h : ¬(c = '/')) :
    splitOnSlash (c :: cs) =
      match splitOnSlash cs with
      | [] => [[c]]
      | t :: ts => (c :: t) :: ts := by
  conv_lhs => unfold splitOnSlash
  rw [if_neg h]

theorem splitOnSlash_ne_nil (l : List Char) : splitOnSlash l ≠ [] := by
  cases l with
  | nil => simp [splitOnSlash]
  | cons c cs =>
    by_cases hc : c = '/'
    · subst hc; rw [splitOnSlash_slash]; simp
    · rw [splitOnSlash_cons_ns c cs hc]
      match splitOnSlash cs with
      | [] => simp
      | t :: ts => simp

theorem splitOnSlash_no_slash (l : List Char) (h : l.contains '/' = false) :
    splitOnSlash l = [l] := by
  induction l with
  | nil => rfl
  | cons c cs ih =>
    simp only [List.contains_cons, Bool.or_eq_false_iff] at h
    have hc : ¬(c = '/') := by
      intro hh; subst hh; simp at h
    rw [splitOnSlash_cons_ns c cs hc, ih h.2]

theorem splitOnSlash_append_slash (p : List Char) (rest : List Char)
    (h : p.contains '/' = false) :
    splitOnSlash (p ++ '/' :: rest) = p :: splitOnSlash rest := by
  induction p with
  | nil => simp [splitOnSlash_slash]
  | cons c cs ih =>
    simp only [List.contains_cons, Bool.or_eq_false_iff] at h
    have hc : ¬(c = '/') := by
      intro hh; subst hh; simp at h
    simp only [List.cons_append]
    rw [splitOnSlash_cons_ns c _ hc, ih h.2]

theorem string_data_append (s t : String) : (s ++ t).data = s.data ++ t.data :=
  String.data_append s t

/-- Splitting inverts joining for nonempty lists of slash-free components. -/
theorem splitSlashStr_joinSlash (comps : List String) (hne : comps ≠ [])
    (hns : ∀ c ∈ comps, noSlash c = true) :
    splitSlashStr (joinSlash comps) = comps := by
  induction comps with
  | nil => exact absurd rfl hne
  | cons c cs ih =>
    cases cs with
    | nil =>
      have hc : c.data.contains '/' = false := by
        have := hns c (by simp)
        simpa [noSlash] using this
      simp only [joinSlash, splitSlashStr]
      rw [splitOnSlash_no_slash c.data hc]
      simp
    | cons c2 cs2 =>
      have hc : c.data.contains '/' = false := by
        have := hns c (by simp)
        simpa [noSlash] using this
      simp only [joinSlash, splitSlashStr]
      have hdata : (c ++ "/" ++ joinSlash (c2 :: cs2)).data
          = c.data ++ '/' :: (joinSlash (c2 :: cs2)).data := by
        rw [string_data_append, string_data_append, List.append_assoc]
        rfl
      rw [hdata, splitOnSlash_append_slash c.data _ hc]
      have ihe := ih (by simp) (fun x hx => hns x (by simp [hx]))
      simp only [splitSlashStr] at ihe
      simp [ihe]

theorem joinSlash_injective (a b : List String) (ha : a ≠ []) (hb : b ≠ [])
    (hna : ∀ c ∈ a, noSlash c = true) (hnb : ∀ c ∈ b, noSlash c = true)
    (h : joinSlash a = joinSlash b) : a = b := by
  have := splitSlashStr_joinSlash a ha hna
  rw [h, splitSlashStr_joinSlash b hb hnb] at this
  exact this.symm

/-! ### Python `Path.suffix` / `Path.with_suffix` on a final component -/

/-- Split a name at its last dot: `some (before, after)` with
`name = before ++ "." ++ after` and no dot in `after`. -/
def splitLastDot : List Char → Option (List Char × List Char)
  | [] => none
  | c :: cs =>
    match splitLastDot cs with
    | some (a, b) => some (c :: a, b)
    | none => if c = '.' then some ([], cs) else none

theorem splitLastDot_spec (l : List Char) :
    (∀ a b, splitLastDot l = some (a, b) → l = a ++ '.' :: b ∧ b.contains '.' = false) ∧
    (splitLastDot l = none → l.contains '.' = false) := by
  induction l with
  | nil => exact ⟨fun a b h => by simp [splitLastDot] at h, fun _ => rfl⟩
  | cons c cs ih =>
    constructor
    · intro a b h
      unfold splitLastDot at h
      match hcs : splitLastDot cs with
      | some (a0, b0) =>
        rw [hcs] at h
        simp only [Option.some.injEq, Prod.mk.injEq] at h
        obtain ⟨ha, hb⟩ := h
        obtain ⟨heq, hnd⟩ := ih.1 a0 b0 hcs
        subst ha; subst hb
        exact ⟨by simp [heq], hnd⟩
      | none =>
        rw [hcs] at h
        by_cases hc : c = '.'
        · rw [if_pos hc] at h
          simp only [Option.some.injEq, Prod.mk.injEq] at h
          obtain ⟨ha, hb⟩ := h
          subst ha; subst hb
          exact ⟨by simp [hc], ih.2 hcs⟩
        · rw [if_neg hc] at h; simp at h
    · intro h
      unfold splitLastDot at h
      match hcs : splitLastDot cs with
      | some (a0, b0) => rw [hcs] at h; simp at h
      | none =>
        rw [hcs] at h
        by_cases hc : c = '.'
        · rw [if_pos hc] at h; simp at h
        · simp only [List.contains_cons, Bool.or_eq_false_iff]
          constructor
          · simpa using fun he => hc (by simpa using he.symm)
          · exact ih.2 hcs

/-- Python `PurePath.suffix` of a final component: the part from the last
dot, provided that dot is neither the first nor the last character. -/
def pySuffix (name : String) : String :=
  match splitLastDot name.data with
  | some (a, b) => if a ≠ [] ∧ b ≠ [] then String.mk ('.' :: b) else ""
  | none => ""

/-- Python `with_suffix` applied to a final component: replace the existing
suffix if any, else append. -/
def pyWithSuffixName (name suf : String) : String :=
  match splitLastDot name.data with
  | some (a, b) => if a ≠ [] ∧ b ≠ [] then String.mk a ++ suf else name ++ suf
  | none => name ++ suf

/-! ### Consecutive-dot detection (used for the `..` claims) -/

/-- Whether the character list contains two consecutive dots. -/
def hasDDL : List Char → Bool
  | [] => false
  | [_] => false
  | a :: b :: rest => (a = '.' && b = '.') || hasDDL (b :: rest)

/-- Whether the string contains `..` as a substring. -/
def hasDD (s : String) : Bool := hasDDL s.data

theorem hasDDL_cons_of_tail (a : Char) (l : List Char) (h : hasDDL l = true) :
    hasDDL (a :: l) = true := by
  cases l with
  | nil => simp [hasDDL] at h
  | cons b rest => simp [hasDDL, h]

theorem hasDDL_append_left (x y : List Char) (h : hasDDL x = true) :
    hasDDL (x ++ y) = true := by
  induction x with
  | nil => simp [hasDDL] at h
  | cons a rest ih =>
    cases rest with
    | nil => simp [hasDDL] at h
    | cons b rest2 =>
      simp only [hasDDL, Bool.or_eq_true] at h
      rcases h with h | h
      · simp [hasDDL, h]
      · have := ih h
        simp only [List.cons_append] at this ⊢
        exact hasDDL_cons_of_tail a _ this

theorem hasDDL_append_right (x y : List Char) (h : hasDDL y = true) :
    hasDDL (x ++ y) = true := by
  induction x with
  | nil => simpa using h
  | cons a rest ih => exact hasDDL_cons_of_tail a _ ih

theorem hasDDL_explicit (x y : List Char) :
    hasDDL (x ++ '.' :: '.' :: y) = true := by
  apply hasDDL_append_right
  simp [hasDDL]

theorem hasDDL_decomp (l : List Char) (h : hasDDL l = true) :
    ∃ x y, l = x ++ '.' :: '.' :: y := by
  induction l with
  | nil => simp [hasDDL] at h
  | cons a rest ih =>
    cases rest with
    | nil => simp [hasDDL] at h
    | cons b rest2 =>
      simp only [hasDDL, Bool.or_eq_true, Bool.and_eq_true, decide_eq_true_eq] at h
      rcases h with ⟨ha, hb⟩ | h
      · subst ha; subst hb
        exact ⟨[], rest2, rfl⟩
      · obtain ⟨x, y, hxy⟩ := ih h
        exact ⟨a :: x, y, by simp [hxy]⟩

/-- If a concatenation contains `..`, it is inside the left part, inside the
right part, or straddling the boundary. -/
theorem hasDDL_append_cases (x y : List Char) (h : hasDDL (x ++ y) = true) :
    hasDDL x = true ∨ hasDDL y = true ∨
      (x.getLast? = some '.' ∧ ∃ t, y = '.' :: t) := by
  induction x with
  | nil => exact Or.inr (Or.inl (by simpa using h))
  | cons a rest ih =>
    cases rest with
    | nil =>
      cases y with
      | nil => simp [hasDDL] at h
      | cons b t =>
        simp only [List.singleton_append, hasDDL, Bool.or_eq_true, Bool.and_eq_true,
          decide_eq_true_eq] at h
        rcases h with ⟨ha, hb⟩ | h
        · subst ha; subst hb
          exact Or.inr (Or.inr ⟨rfl, t, rfl⟩)
        · exact Or.inr (Or.inl h)
    | cons b rest2 =>
      simp only [List.cons_append, hasDDL, Bool.or_eq_true, Bool.and_eq_true,
        decide_eq_true_eq] at h
      rcases h with ⟨ha, hb⟩ | h
      · subst ha; subst hb
        exact Or.inl (by simp [hasDDL])
      · rcases ih (by simpa using h) with h1 | h1 | ⟨h1, h2⟩
        · exact Or.inl (hasDDL_cons_of_tail a _ h1)
        · exact Or.inr (Or.inl h1)
        · refine Or.inr (Or.inr ⟨?_, h2⟩)
          rw [List.getLast?_cons_cons]
          exact h1

/-! ### `pathlib.PurePosixPath`, restricted to what the driller uses

A parsed path: an absolute flag plus the retained components.  `pathlib`
drops empty and `"."` segments and keeps `".."`; it never resolves `".."`.
-/

structure PyPath where
  absolute : Bool
  parts : List String
deriving DecidableEq

/-- Python `Path(s)` for a string (POSIX flavour; the `//` root corner is folded
into a single root, which the driller never distinguishes). -/
def parsePath (s : String) : PyPath :=
  { absolute := strStarts s "/"
    parts := (splitSlashStr s).filter (fun c => c ≠ "" && c ≠ ".") }

/-- Python `Path.as_posix()`. -/
def PyPath.posix (p : PyPath) : String :=
  if p.absolute then "/" ++ joinSlash p.parts
  else if p.parts = [] then "." else joinSlash p.parts

/-- Python `Path.name` (empty for a path with no components). -/
def PyPath.name (p : PyPath) : String := p.parts.getLast?.getD ""

/-- Python `Path.parent` as used on relative file paths: drop the final component. -/
def PyPath.parent (p : PyPath) : PyPath := { p with parts := p.parts.dropLast }

/-- Joining, `p / s`: parse `s` and join; an absolute right side replaces `p`. -/
def PyPath.join (p : PyPath) (s : String) : PyPath :=
  let q := parsePath s
  if q.absolute then q else { absolute := p.absolute, parts := p.parts ++ q.parts }

/-- Python `Path.with_suffix(suf)` — replaces the suffix of the final component
(total function; the Python call raises on an empty name, which the
resolver embedding models separately as an error). -/
def PyPath.withSuffix (p : PyPath) (suf : String) : PyPath :=
  { p with parts := p.parts.dropLast ++ [pyWithSuffixName p.name suf] }

/-- Python `Path(s).suffix`. -/
def pathSuffix (s : String) : String := pySuffix (parsePath s).name

/-! ### The import resolver (`DependencyDriller._resolve_target` and
`DependencyDriller._candidate_paths`) -/

/-- The fixed extension priority order of `_candidate_paths`. -/
def resolverExts : List String := [".ts", ".tsx", ".js", ".jsx", ".mjs", ".cjs", ".php"]

/-- Model of `_candidate_paths`: honour an explicit extension first, otherwise try
the extensions in order and then directory index files. -/
def candidatePaths (rel_path : String) : List String :=
  let path_obj := parsePath rel_path
  if pySuffix path_obj.name ≠ "" then [path_obj.posix]
  else
    (resolverExts.map fun e => rel_path ++ e) ++
      (resolverExts.map fun e => ((parsePath rel_path).join ("index" ++ e)).posix)

/-- Return the first candidate present in the known path set
(the `for cand in candidates: if cand in known_paths: return cand` loop). -/
def firstHit (cands known_paths : List String) : Option String :=
  cands.find? (fun c => known_paths.contains c)

/-- Lines 225–239 of `_resolve_target`: root-marker stripping, join to the
importer's directory, candidate expansion, first hit. -/
def generalResolve (importerRel cleaned : String) (known_paths : List String) :
    Option String :=
  let rel_candidate := if strStarts cleaned "/" then strDrop1 cleaned else cleaned
  let importer_dir := (parsePath importerRel).parent
  let base_path := (importer_dir.join rel_candidate).posix
  firstHit (candidatePaths base_path) known_paths

/-- The PHP heuristic conversion: `cleaned.replace("\\", "/")` parsed as a
path (`Path(cleaned.replace("\\", "/"))`). -/
def phpNamespaceGuess (cleaned : String) : PyPath :=
  parsePath (String.mk (cleaned.data.map (fun c => if c = '\\' then '/' else c)))

/-- Model of `_resolve_target`.  The result is `Except`: `.error ()` models the
uncaught `ValueError` that `with_suffix` raises when the PHP namespace
guess has an empty final name; `.ok none` is an unresolved specifier. -/
def resolveTarget (importerRel importerExt target : String)
    (known_paths : List String) : Except Unit (Option String) :=
  if target = "" then .ok none
  else if strStarts target "http://" || strStarts target "https://" then .ok none
  else
    let cleaned := pyStripQuotes (pyStrip target)
    if cleaned = "" then .ok none
    else if importerExt = ".php" && cleaned.data.contains '\\' &&
        !(strStarts cleaned "./" || strStarts cleaned "/") then
      let php_guess := phpNamespaceGuess cleaned
      if php_guess.parts = [] then .error ()
      else
        let cand1 := (php_guess.withSuffix ".php").posix
        let cand2 := (php_guess.join "index.php").posix
        if known_paths.contains cand1 then .ok (some cand1)
        else if known_paths.contains cand2 then .ok (some cand2)
        else .ok (generalResolve importerRel cleaned known_paths)
    else .ok (generalResolve importerRel cleaned known_paths)

/-- The cleaned form of a raw specifier (`target.strip().strip("\"'")`). -/
def cleanedOf (target : String) : String := pyStripQuotes (pyStrip target)

/-! ### Keyword extraction (`DependencyDriller._extract_keywords`)

Path tokens come from `re.split(r"[\\/._-]+", rel_path)`; the identifier
tokens are the raw capture list produced by the fixed `re.findall`
patterns over the first 5000 characters of the decoded text, which the
embedding abstracts as an input list of strings (the regex engine is an
external collaborator; every filtering, lowercasing, deduplication and
truncation step after it is embedded faithfully). -/

def stopwords : List String :=
  ["", "src", "app", "apps", "lib", "dist", "build", "index", "test", "tests",
   "spec", "tmp", "public", "assets", "vendor", "data", "static"]

def keywordLimit : Nat := 20

/-- The separator class of `re.split(r"[\\/._-]+", ...)`. -/
def isSepChar (c : Char) : Bool :=
  c = '\\' || c = '/' || c = '.' || c = '_' || c = '-'

/-- Python `re.split` on a character class with `+`: maximal separator runs
delimit the tokens; leading/trailing separators give empty tokens. -/
def splitSepsL : List Char → List (List Char)
  | [] => [[]]
  | c :: cs =>
    if isSepChar c then
      match cs with
      | [] => [[], []]
      | d :: _ => if isSepChar d then splitSepsL cs else [] :: splitSepsL cs
    else
      match splitSepsL cs with
      | [] => [[c]]
      | t :: ts => (c :: t) :: ts

def splitSeps (s : String) : List String := (splitSepsL s.data).map String.mk

/-- One step of the keyword loop body: lowercase, drop stopwords and empty
tokens, drop duplicates, append. -/
def kwAdd (keywords : List String) (tok : String) : List String :=
  if stopwords.contains (pyLower tok) || pyLower tok = "" then keywords
  else if keywords.contains (pyLower tok) then keywords
  else keywords ++ [pyLower tok]

def kwFold : List String → List String → List String
  | keywords, [] => keywords
  | keywords, t :: ts => kwFold (kwAdd keywords t) ts

/-- The keyword list before the final `[:KEYWORD_LIMIT]` truncation. -/
def keywordsFull (rel_path : String) (identCaptures : List String) : List String :=
  kwFold (kwFold [] (splitSeps rel_path)) identCaptures

/-- Model of `_extract_keywords`. -/
def extractKeywords (rel_path : String) (identCaptures : List String) : List String :=
  (keywordsFull rel_path identCaptures).take keywordLimit

/-! ### Ignore-rule engine (`_build_ignore_spec`, `_should_ignore`)

`pathspec` `GitWildMatchPattern`s are modelled for the fragment the claims
exercise: literal names (optionally `!`-negated, optionally with a
trailing `/`).  A literal pattern `name` matches every path having `name`
as a component; `name/` matches every path having `name` as a
non-final component; `match_file` applies the last matching pattern
(`!` patterns re-include).  Paths are handled as component lists, which
agrees with the slash-joined strings the Python code passes because
`os.walk` components never contain a slash. -/

structure IgnorePattern where
  negated : Bool
  lit : String
  dirOnly : Bool
deriving DecidableEq

def patMatch (p : IgnorePattern) (comps : List String) : Bool :=
  if p.dirOnly then comps.dropLast.contains p.lit else comps.contains p.lit

def matchFile (pats : List IgnorePattern) (comps : List String) : Bool :=
  pats.foldl (fun acc p => if patMatch p comps then !p.negated else acc) false

/-- The `DEFAULT_IGNORES` set from the source. -/
def defaultIgnoreNames : List String :=
  [".git", ".hg", ".svn", ".venv", "node_modules", "dist", "build",
   "__pycache__", ".cache"]

/-- The default lines: each name as a trailing-slash directory pattern and
as a bare name. -/
def defaultPatterns : List IgnorePattern :=
  defaultIgnoreNames.map (fun n => ⟨false, n, true⟩) ++
    defaultIgnoreNames.map (fun n => ⟨false, n, false⟩)

/-- Model of `_build_ignore_spec`: defaults first, then the repository
`.gitignore` lines and the optional extra ignore file, abstracted here as
the `extra` pattern list. -/
def buildIgnoreSpec (extra : List IgnorePattern) : List IgnorePattern :=
  defaultPatterns ++ extra

/-! ### Tree scanner (`_iter_working_files`)

The working tree is a finite tree of named files and subdirectories; the
scan yields this directory's files first and then recurses into the
subdirectories that survive pruning, exactly as `os.walk` with in-place
`dirnames` filtering does. -/

/-- The `SUPPORTED_IMPORT_EXTS` set from the source. -/
def supportedImportExts : List String :=
  [".js", ".jsx", ".ts", ".tsx", ".mjs", ".cjs", ".php"]

structure WorkingFile where
  rel_path : String
  ext : String
deriving DecidableEq

mutual
inductive FTree where
  | node (files : List String) (dirs : DirList)
inductive DirList where
  | dnil
  | dcons (dname : String) (t : FTree) (rest : DirList)
end

mutual
/-- All file and directory names in the tree are free of `/`. -/
def namesOk : FTree → Bool
  | .node files dirs => files.all noSlash && dirsOk dirs
def dirsOk : DirList → Bool
  | .dnil => true
  | .dcons dname t rest => noSlash dname && namesOk t && dirsOk rest
end

mutual
/-- Model of `_iter_working_files`, relative to the components `relDir` of the
current directory: yield non-ignored files with a supported extension,
then walk the non-pruned subdirectories. -/
def walkTree (pats : List IgnorePattern) (relDir : List String) : FTree → List WorkingFile
  | .node files dirs =>
    (files.filterMap fun f =>
      if matchFile pats (relDir ++ [f]) then none
      else
        if supportedImportExts.contains (pyLower (pySuffix f)) then
          some ⟨joinSlash (relDir ++ [f]), pyLower (pySuffix f)⟩
        else none) ++
    walkDirs pats relDir dirs
def walkDirs (pats : List IgnorePattern) (relDir : List String) : DirList → List WorkingFile
  | .dnil => []
  | .dcons dname t rest =>
    (if matchFile pats (relDir ++ [dname]) then []
     else walkTree pats (relDir ++ [dname]) t) ++
    walkDirs pats relDir rest
end

/-- The scanner as called by `run`: a walk rooted at the repository. -/
def iterWorkingFiles (extra : List IgnorePattern) (t : FTree) : List WorkingFile :=
  walkTree (buildIgnoreSpec extra) [] t

/-! ### Import extraction control flow (`_extract_imports`)

The tree-sitter pieces are abstract: `lang` is the `filename_to_lang`
result, `parserOk` tells whether `get_language`/`get_parser` succeed
(their failure is caught), `readRes` is the outcome of
`file.abs_path.read_bytes()` — which the source calls outside any
`try` block — and `jsImports`/`phpImports` are the walker results for a
successfully parsed tree (`parser.parse` itself does not raise). -/

def extractImports (lang : Option String) (parserOk : Bool)
    (readRes : Except Unit Unit) (jsImports phpImports : List String) :
    Except Unit (List String) :=
  match lang with
  | none => .ok []
  | some l =>
    if !parserOk then .ok []
    else
      match readRes with
      | .error e => .error e
      | .ok _ =>
        if l = "javascript" || l = "typescript" then .ok jsImports
        else if l = "php" then .ok phpImports
        else .ok []

/-! ### The run loop (`DependencyDriller.run`)

External collaborators become parameters: `knownFiles` is the key set of
the `merge_hash -> hash` map returned by `_load_known_files` (only key
membership and emptiness are used by `run`); `getPathHashes` is
`utl.get_path_hashes(path, project_id)` as a pure function of the path;
`importsOf` gives the `_extract_imports` result per file and `capturesOf`
the regex capture list used by `_extract_keywords`.  The `file_hashes`
dict is transparent because `getPathHashes` is a function of the path. -/

structure ImportEdge where
  src_merge_hash : String
  src_hash : String
  dst_merge_hash : String
  dst_hash : String
deriving DecidableEq

structure KeywordRow where
  merge_hash : String
  hash : String
  keywords : List String
deriving DecidableEq

structure RunResult where
  relations : List ImportEdge
  keywordRows : List KeywordRow
  persistedKeywords : Bool
  persistedImports : Bool
deriving DecidableEq

/-- The inner loop over one file's raw import targets: resolve, drop
unknown identities, dedupe on the ordered `(merge_hash, tgt_merge_hash)`
pair, append the surviving relations. -/
def processTargets (importer : WorkingFile) (srcMh srcH : String)
    (workingPaths knownFiles : List String) (getPH : String → String × String) :
    List String → List (String × String) → List ImportEdge →
    Except Unit (List (String × String) × List ImportEdge)
  | [], seen, rels => .ok (seen, rels)
  | tgt :: rest, seen, rels =>
    match resolveTarget importer.rel_path importer.ext tgt workingPaths with
    | .error e => .error e
    | .ok none => processTargets importer srcMh srcH workingPaths knownFiles getPH rest seen rels
    | .ok (some resolved) =>
      let tgtHashes := getPH resolved
      if knownFiles.contains tgtHashes.1 then
        if seen.contains (srcMh, tgtHashes.1) then
          processTargets importer srcMh srcH workingPaths knownFiles getPH rest seen rels
        else
          processTargets importer srcMh srcH workingPaths knownFiles getPH rest
            ((srcMh, tgtHashes.1) :: seen)
            (rels ++ [⟨srcMh, srcH, tgtHashes.1, tgtHashes.2⟩])
      else processTargets importer srcMh srcH workingPaths knownFiles getPH rest seen rels

/-- The outer loop over the scanned working files: skip files whose own
identity is unknown, emit the keyword row, then process the file's
imports. -/
def processFiles (workingPaths knownFiles : List String)
    (getPH : String → String × String) (importsOf capturesOf : String → List String) :
    List WorkingFile → List (String × String) → List ImportEdge → List KeywordRow →
    Except Unit (List (String × String) × List ImportEdge × List KeywordRow)
  | [], seen, rels, rows => .ok (seen, rels, rows)
  | wf :: rest, seen, rels, rows =>
    let hashes := getPH wf.rel_path
    if knownFiles.contains hashes.1 then
      let rows' := rows ++ [⟨hashes.1, hashes.2,
        extractKeywords wf.rel_path (capturesOf wf.rel_path)⟩]
      match processTargets wf hashes.1 hashes.2 workingPaths knownFiles getPH
          (importsOf wf.rel_path) seen rels with
      | .error e => .error e
      | .ok (seen', rels') =>
        processFiles workingPaths knownFiles getPH importsOf capturesOf rest seen' rels' rows'
    else processFiles workingPaths knownFiles getPH importsOf capturesOf rest seen rels rows

/-- Model of `run`: early exits on an empty known set or empty scan, then the main
loop; the two `persisted` flags record whether the guarded batch calls
(`set_file_keywords`, `index_imports`) are invoked. -/
def runCore (knownFiles : List String) (workingFiles : List WorkingFile)
    (getPH : String → String × String) (importsOf capturesOf : String → List String) :
    Except Unit RunResult :=
  if knownFiles = [] then .ok ⟨[], [], false, false⟩
  else if workingFiles = [] then .ok ⟨[], [], false, false⟩
  else
    let workingPaths := workingFiles.map (fun wf => wf.rel_path)
    match processFiles workingPaths knownFiles getPH importsOf capturesOf
        workingFiles [] [] [] with
    | .error e => .error e
    | .ok (_, rels, rows) => .ok ⟨rels, rows, !rows.isEmpty, !rels.isEmpty⟩

/-! ### Lemmas about the keyword fold -/

/-- Invariant of the keyword accumulator: duplicate-free, no stopword, no
empty entry, all-lowercase entries. -/
def kwGood (l : List String) : Prop :=
  l.Nodup ∧ ∀ k ∈ l, k ∉ stopwords ∧ k ≠ "" ∧ isLowerStr k

theorem kwAdd_cases (acc : List String) (t : String) :
    kwAdd acc t = acc ∨ kwAdd acc t = acc ++ [pyLower t] := by
  unfold kwAdd
  split
  · exact Or.inl rfl
  · split
    · exact Or.inl rfl
    · exact Or.inr rfl

theorem kwAdd_good (acc : List String) (t : String) (h : kwGood acc) :
    kwGood (kwAdd acc t) := by
  unfold kwAdd
  split
  · exact h
  · split
    · exact h
    · rename_i hstop hdup
      simp only [Bool.or_eq_true, decide_eq_true_eq, not_or] at hstop
      obtain ⟨hs1, hs2⟩ := hstop
      constructor
      · rw [List.nodup_append]
        refine ⟨h.1, List.nodup_singleton _, ?_⟩
        intro a ha hb
        simp only [List.mem_singleton] at hb
        subst hb
        exact hdup (List.elem_eq_true_of_mem ha)
      · intro k hk
        rw [List.mem_append] at hk
        rcases hk with hk | hk
        · exact h.2 k hk
        · simp only [List.mem_singleton] at hk
          subst hk
          refine ⟨?_, hs2, pyLower_isLower t⟩
          intro hmem
          exact hs1 (List.elem_eq_true_of_mem hmem)

theorem kwFold_good (acc toks : List String) (h : kwGood acc) :
    kwGood (kwFold acc toks) := by
  induction toks generalizing acc with
  | nil => exact h
  | cons t ts ih => exact ih (kwAdd acc t) (kwAdd_good acc t h)

theorem kwFold_extend (acc toks : List String) :
    ∃ d, kwFold acc toks = acc ++ d ∧ ∀ x ∈ d, ∃ t ∈ toks, x = pyLower t := by
  induction toks generalizing acc with
  | nil => exact ⟨[], by simp [kwFold]⟩
  | cons t ts ih =>
    obtain ⟨d, hd, hmem⟩ := ih (kwAdd acc t)
    have hstep : kwFold acc (t :: ts) = kwFold (kwAdd acc t) ts := rfl
    rcases kwAdd_cases acc t with hc | hc
    · refine ⟨d, ?_, ?_⟩
      · rw [hstep, hd, hc]
      · intro x hx
        obtain ⟨u, hu, hux⟩ := hmem x hx
        exact ⟨u, List.mem_cons_of_mem t hu, hux⟩
    · refine ⟨pyLower t :: d, ?_, ?_⟩
      · rw [hstep, hd, hc]
        simp
      · intro x hx
        rcases List.mem_cons.mp hx with hx | hx
        · exact ⟨t, List.mem_cons_self t ts, hx⟩
        · obtain ⟨u, hu, hux⟩ := hmem x hx
          exact ⟨u, List.mem_cons_of_mem t hu, hux⟩

/-- C6: for every scanned file, the extracted keyword list has length at
most 20, contains no stopword and no empty string, has no duplicates, every
entry is lowercase, path-segment tokens precede identifier-pattern tokens
in first-discovery order, and the list is the plain truncation (no
re-sorting) of the untruncated fold at the cap. -/
theorem c6_keyword_list_shape (rel : String) (caps : List String) :
    (extractKeywords rel caps).length ≤ keywordLimit ∧
    (extractKeywords rel caps).Nodup ∧
    (∀ k ∈ extractKeywords rel caps, k ∉ stopwords ∧ k ≠ "" ∧ isLowerStr k) ∧
    ∃ pathPart identPart,
      keywordsFull rel caps = pathPart ++ identPart ∧
      extractKeywords rel caps = (pathPart ++ identPart).take keywordLimit ∧
      (∀ x ∈ pathPart, ∃ t ∈ splitSeps rel, x = pyLower t) ∧
      (∀ x ∈ identPart, ∃ t ∈ caps, x = pyLower t) := by
  have hnil : kwGood [] := ⟨List.nodup_nil, by simp⟩
  have hgood : kwGood (keywordsFull rel caps) :=
    kwFold_good _ caps (kwFold_good [] (splitSeps rel) hnil)
  have htake : extractKeywords rel caps = (keywordsFull rel caps).take keywordLimit := rfl
  refine ⟨?_, ?_, ?_, ?_⟩
  · rw [htake]
    exact List.length_take_le keywordLimit _
  · rw [htake]
    exact List.Nodup.sublist (List.take_sublist _ _) hgood.1
  · intro k hk
    rw [htake] at hk
    exact hgood.2 k (List.mem_of_mem_take hk)
  · obtain ⟨d1, hd1, hm1⟩ := kwFold_extend [] (splitSeps rel)
    obtain ⟨d2, hd2, hm2⟩ := kwFold_extend (kwFold [] (splitSeps rel)) caps
    refine ⟨kwFold [] (splitSeps rel), d2, hd2, ?_, ?_, hm2⟩
    · rw [htake, ← hd2]
      rfl
    · intro x hx
      rw [hd1] at hx
      exact hm1 x (by simpa using hx)

/-! ### Lemmas about the resolver result -/

theorem firstHit_mem (cands K : List String) (c : String)
    (h : firstHit cands K = some c) : c ∈ K := by
  unfold firstHit at h
  have hp := List.find?_some (p := fun x => K.contains x) h
  exact List.mem_of_elem_eq_true (by simpa using hp)

theorem firstHit_mem_cands (cands K : List String) (c : String)
    (h : firstHit cands K = some c) : c ∈ cands := by
  unfold firstHit at h
  exact List.mem_of_find?_eq_some h

theorem generalResolve_mem (rel cleaned : String) (K : List String) (c : String)
    (h : generalResolve rel cleaned K = some c) : c ∈ K := by
  unfold generalResolve at h
  exact firstHit_mem _ _ _ h

/-- A resolved specifier always lies in the scanned path set handed to the
resolver. -/
theorem resolveTarget_mem (rel ext tgt : String) (K : List String) (c : String)
    (h : resolveTarget rel ext tgt K = .ok (some c)) : c ∈ K := by
  simp only [resolveTarget] at h
  split at h
  · simp at h
  · split at h
    · simp at h
    · split at h
      · simp at h
      · split at h
        · split at h
          · simp at h
          · split at h
            · rename_i hc1
              simp only [Except.ok.injEq, Option.some.injEq] at h
              subst h
              exact List.mem_of_elem_eq_true hc1
            · split at h
              · rename_i hc2
                simp only [Except.ok.injEq, Option.some.injEq] at h
                subst h
                exact List.mem_of_elem_eq_true hc2
              · simp only [Except.ok.injEq] at h
                exact generalResolve_mem _ _ _ _ h
        · simp only [Except.ok.injEq] at h
          exact generalResolve_mem _ _ _ _ h

/-! ### Invariants of the run loop -/

/-- The dedup key actually used by `run`: the ordered pair of endpoint
identities. -/
def edgeKey (e : ImportEdge) : String × String := (e.src_merge_hash, e.dst_merge_hash)

theorem processTargets_spec (importer : WorkingFile) (srcMh srcH : String)
    (workingPaths knownFiles : List String) (getPH : String → String × String)
    (targets : List String) (seen : List (String × String)) (rels : List ImportEdge)
    (res : List (String × String) × List ImportEdge)
    (hres : processTargets importer srcMh srcH workingPaths knownFiles getPH
      targets seen rels = .ok res)
    (hsub : ∀ e ∈ rels, edgeKey e ∈ seen)
    (hnd : (rels.map edgeKey).Nodup) :
    (∀ e ∈ res.2, edgeKey e ∈ res.1) ∧
    (res.2.map edgeKey).Nodup ∧
    (∀ e ∈ res.2, e ∈ rels ∨
      (e.src_merge_hash = srcMh ∧ e.src_hash = srcH ∧
       e.dst_merge_hash ∈ knownFiles ∧
       ∃ p ∈ workingPaths, getPH p = (e.dst_merge_hash, e.dst_hash))) := by
  induction targets generalizing seen rels with
  | nil =>
    simp only [processTargets] at hres
    cases hres
    exact ⟨hsub, hnd, fun e he => Or.inl he⟩
  | cons tgt rest ih =>
    simp only [processTargets] at hres
    cases hrt : resolveTarget importer.rel_path importer.ext tgt workingPaths with
    | error u => rw [hrt] at hres; simp at hres
    | ok o =>
      rw [hrt] at hres
      cases o with
      | none =>
        simp only [] at hres
        exact ih seen rels hres hsub hnd
      | some resolved =>
        simp only [] at hres
        split at hres
        · rename_i hknown
          split at hres
          · exact ih seen rels hres hsub hnd
          · rename_i hseen
            have hmemK : (getPH resolved).1 ∈ knownFiles := List.mem_of_elem_eq_true hknown
            have hmemW : resolved ∈ workingPaths := resolveTarget_mem _ _ _ _ _ hrt
            have hnotseen : (srcMh, (getPH resolved).1) ∉ seen := by
              intro hm
              exact hseen (List.elem_eq_true_of_mem hm)
            have hsub2 : ∀ e ∈ rels ++
                  [(⟨srcMh, srcH, (getPH resolved).1, (getPH resolved).2⟩ : ImportEdge)],
                edgeKey e ∈ (srcMh, (getPH resolved).1) :: seen := by
              intro e he
              rw [List.mem_append] at he
              rcases he with he | he
              · exact List.mem_cons_of_mem _ (hsub e he)
              · simp only [List.mem_singleton] at he
                subst he
                exact List.mem_cons_self _ _
            have hnd2 : ((rels ++
                  [(⟨srcMh, srcH, (getPH resolved).1, (getPH resolved).2⟩ : ImportEdge)]).map
                edgeKey).Nodup := by
              rw [List.map_append, List.nodup_append]
              refine ⟨hnd, List.nodup_singleton _, ?_⟩
              intro a ha hb
              simp only [List.map_cons, List.map_nil, List.mem_singleton] at hb
              subst hb
              rw [List.mem_map] at ha
              obtain ⟨e, hemem, hekey⟩ := ha
              have : edgeKey e ∈ seen := hsub e hemem
              rw [hekey] at this
              exact hnotseen this
            obtain ⟨c1, c2, c3⟩ := ih _ _ hres hsub2 hnd2
            refine ⟨c1, c2, ?_⟩
            intro e he
            rcases c3 e he with hin | hnew
            · rw [List.mem_append] at hin
              rcases hin with hin | hin
              · exact Or.inl hin
              · simp only [List.mem_singleton] at hin
                subst hin
                exact Or.inr ⟨rfl, rfl, hmemK, Exists.intro resolved ⟨hmemW, rfl⟩⟩
            · exact Or.inr hnew
        · exact ih seen rels hres hsub hnd

theorem processFiles_spec (workingPaths knownFiles : List String)
    (getPH : String → String × String) (importsOf capturesOf : String → List String)
    (files : List WorkingFile) (seen : List (String × String)) (rels : List ImportEdge)
    (rows : List KeywordRow)
    (res : List (String × String) × List ImportEdge × List KeywordRow)
    (hres : processFiles workingPaths knownFiles getPH importsOf capturesOf
      files seen rels rows = .ok res)
    (hsub : ∀ e ∈ rels, edgeKey e ∈ seen)
    (hnd : (rels.map edgeKey).Nodup) :
    (res.2.1.map edgeKey).Nodup ∧
    (∀ e ∈ res.2.1, e ∈ rels ∨
      (e.src_merge_hash ∈ knownFiles ∧ e.dst_merge_hash ∈ knownFiles ∧
       (∃ wf ∈ files, getPH wf.rel_path = (e.src_merge_hash, e.src_hash)) ∧
       (∃ p ∈ workingPaths, getPH p = (e.dst_merge_hash, e.dst_hash)))) ∧
    (∀ row ∈ res.2.2, row ∈ rows ∨
      (row.merge_hash ∈ knownFiles ∧
       ∃ wf ∈ files, getPH wf.rel_path = (row.merge_hash, row.hash))) := by
  induction files generalizing seen rels rows with
  | nil =>
    simp only [processFiles] at hres
    cases hres
    obtain ⟨_, _⟩ := And.intro hsub hnd
    exact ⟨hnd, fun e he => Or.inl he, fun row hr => Or.inl hr⟩
  | cons wf rest ih =>
    simp only [processFiles] at hres
    split at hres
    · rename_i hknown
      have hmemK : (getPH wf.rel_path).1 ∈ knownFiles := List.mem_of_elem_eq_true hknown
      cases hpt : processTargets wf (getPH wf.rel_path).1 (getPH wf.rel_path).2
          workingPaths knownFiles getPH (importsOf wf.rel_path) seen rels with
      | error u => rw [hpt] at hres; simp at hres
      | ok pr =>
        rw [hpt] at hres
        simp only [] at hres
        obtain ⟨t1, t2, t3⟩ := processTargets_spec wf _ _ _ _ getPH _ seen rels pr hpt hsub hnd
        obtain ⟨c1, c2, c3⟩ := ih pr.1 pr.2 _ hres t1 t2
        refine ⟨c1, ?_, ?_⟩
        · intro e he
          rcases c2 e he with hin | hnew
          · rcases t3 e hin with hin2 | hnew2
            · exact Or.inl hin2
            · obtain ⟨hsrc, hsrch, hdstK, p, hpW, hpH⟩ := hnew2
              refine Or.inr ⟨?_, hdstK, ?_, ⟨p, hpW, hpH⟩⟩
              · rw [hsrc]; exact hmemK
              · refine ⟨wf, List.mem_cons_self _ _, ?_⟩
                rw [hsrc, hsrch]
          · obtain ⟨hK1, hK2, ⟨wf2, hwf2, hph2⟩, hp⟩ := hnew
            exact Or.inr ⟨hK1, hK2, ⟨wf2, List.mem_cons_of_mem _ hwf2, hph2⟩, hp⟩
        · intro row hr
          rcases c3 row hr with hin | hnew
          · rw [List.mem_append] at hin
            rcases hin with hin | hin
            · exact Or.inl hin
            · simp only [List.mem_singleton] at hin
              subst hin
              exact Or.inr ⟨hmemK, wf, List.mem_cons_self _ _, rfl⟩
          · obtain ⟨hK, wf2, hwf2, hph2⟩ := hnew
            exact Or.inr ⟨hK, wf2, List.mem_cons_of_mem _ hwf2, hph2⟩
    · obtain ⟨c1, c2, c3⟩ := ih seen rels rows hres hsub hnd
      refine ⟨c1, ?_, ?_⟩
      · intro e he
        rcases c2 e he with hin | hnew
        · exact Or.inl hin
        · obtain ⟨hK1, hK2, ⟨wf2, hwf2, hph2⟩, hp⟩ := hnew
          exact Or.inr ⟨hK1, hK2, ⟨wf2, List.mem_cons_of_mem _ hwf2, hph2⟩, hp⟩
      · intro row hr
        rcases c3 row hr with hin | hnew
        · exact Or.inl hin
        · obtain ⟨hK, wf2, hwf2, hph2⟩ := hnew
          exact Or.inr ⟨hK, wf2, List.mem_cons_of_mem _ hwf2, hph2⟩

/-- Master invariant of a completed run: the edge keys are duplicate-free,
every edge endpoint identity is known and comes from a scanned path, and
every keyword row identity is known and comes from a scanned file. -/
theorem runCore_spec (knownFiles : List String) (workingFiles : List WorkingFile)
    (getPH : String → String × String) (importsOf capturesOf : String → List String)
    (r : RunResult)
    (h : runCore knownFiles workingFiles getPH importsOf capturesOf = .ok r) :
    (r.relations.map edgeKey).Nodup ∧
    (∀ e ∈ r.relations,
      e.src_merge_hash ∈ knownFiles ∧ e.dst_merge_hash ∈ knownFiles ∧
      (∃ wf ∈ workingFiles, getPH wf.rel_path = (e.src_merge_hash, e.src_hash)) ∧
      (∃ p ∈ workingFiles.map (fun wf => wf.rel_path),
        getPH p = (e.dst_merge_hash, e.dst_hash))) ∧
    (∀ row ∈ r.keywordRows,
      row.merge_hash ∈ knownFiles ∧
      ∃ wf ∈ workingFiles, getPH wf.rel_path = (row.merge_hash, row.hash)) := by
  simp only [runCore] at h
  split at h
  · cases h
    exact ⟨List.nodup_nil, by simp, by simp⟩
  · split at h
    · cases h
      exact ⟨List.nodup_nil, by simp, by simp⟩
    · cases hpf : processFiles (workingFiles.map (fun wf => wf.rel_path)) knownFiles
          getPH importsOf capturesOf workingFiles [] [] [] with
      | error u => rw [hpf] at h; simp at h
      | ok res =>
        rw [hpf] at h
        simp only [] at h
        obtain ⟨c1, c2, c3⟩ := processFiles_spec _ _ getPH importsOf capturesOf
          workingFiles [] [] [] res hpf (by simp) (by simp)
        cases h
        refine ⟨c1, ?_, ?_⟩
        · intro e he
          rcases c2 e he with hin | hnew
          · exact absurd hin (List.not_mem_nil e)
          · exact hnew
        · intro row hr
          rcases c3 row hr with hin | hnew
          · exact absurd hin (List.not_mem_nil row)
          · exact hnew

/-! ### Claims C1, C4, C5 -/

/-- C1 counterexample: two known files that import each other.  The claim
says an edge with endpoints `{MA, MB}` recorded in one direction blocks a
later resolved import between the same two identities in either direction,
so only one edge may materialize; the code keys its dedup set on the
ordered pair `(src, dst)` and materializes both directions. -/
theorem c1_counterexample :
    runCore ["MA", "MB"] [⟨"a.ts", ".ts"⟩, ⟨"b.ts", ".ts"⟩]
      (fun p => if p = "a.ts" then ("MA", "HA")
                else if p = "b.ts" then ("MB", "HB") else ("", ""))
      (fun p => if p = "a.ts" then ["./b"]
                else if p = "b.ts" then ["./a"] else [])
      (fun _ => [])
    = .ok ⟨[⟨"MA", "HA", "MB", "HB"⟩, ⟨"MB", "HB", "MA", "HA"⟩],
           [⟨"MA", "HA", ["a", "ts"]⟩, ⟨"MB", "HB", ["b", "ts"]⟩], true, true⟩ := rfl

/-- C1 (amended): edges are deduplicated by the ORDERED pair
`(src_merge_hash, dst_merge_hash)`: a later resolved import with the same
source and target identities — in particular a second import statement in
the same file resolving to the same file — produces no additional
`ImportEdge`, while an import in the reverse direction produces its own
edge.  Formally: the materialized relation list never repeats an ordered
endpoint pair. -/
theorem c1_dedup_ordered_pairs (knownFiles : List String)
    (workingFiles : List WorkingFile) (getPH : String → String × String)
    (importsOf capturesOf : String → List String) (r : RunResult)
    (h : runCore knownFiles workingFiles getPH importsOf capturesOf = .ok r) :
    (r.relations.map edgeKey).Nodup :=
  (runCore_spec knownFiles workingFiles getPH importsOf capturesOf r h).1

theorem c1_dedup_ordered_pairs_witness :
    ((([⟨"MA", "HA", "MB", "HB"⟩, ⟨"MB", "HB", "MA", "HA"⟩] : List ImportEdge).map
      edgeKey)).Nodup :=
  c1_dedup_ordered_pairs ["MA", "MB"] [⟨"a.ts", ".ts"⟩, ⟨"b.ts", ".ts"⟩]
    (fun p => if p = "a.ts" then ("MA", "HA")
              else if p = "b.ts" then ("MB", "HB") else ("", ""))
    (fun p => if p = "a.ts" then ["./b"]
              else if p = "b.ts" then ["./a"] else [])
    (fun _ => [])
    ⟨[⟨"MA", "HA", "MB", "HB"⟩, ⟨"MB", "HB", "MA", "HA"⟩],
     [⟨"MA", "HA", ["a", "ts"]⟩, ⟨"MB", "HB", ["b", "ts"]⟩], true, true⟩ rfl

/-- C4: every materialized `ImportEdge` references a `src_merge_hash` and a
`dst_merge_hash` present in the externally known file set loaded at the
start of the run, and every materialized `KeywordRow` references a
`merge_hash` present in that set; resolution to a scanned path with an
unknown identity contributes nothing (see the witness, whose environment
contains exactly such a specifier and still completes without error and
without that edge). -/
theorem c4_outputs_reference_known_identities (knownFiles : List String)
    (workingFiles : List WorkingFile) (getPH : String → String × String)
    (importsOf capturesOf : String → List String) (r : RunResult)
    (h : runCore knownFiles workingFiles getPH importsOf capturesOf = .ok r) :
    (∀ e ∈ r.relations, e.src_merge_hash ∈ knownFiles ∧ e.dst_merge_hash ∈ knownFiles) ∧
    (∀ row ∈ r.keywordRows, row.merge_hash ∈ knownFiles) := by
  obtain ⟨_, c2, c3⟩ := runCore_spec knownFiles workingFiles getPH importsOf capturesOf r h
  exact ⟨fun e he => ⟨(c2 e he).1, (c2 e he).2.1⟩, fun row hr => (c3 row hr).1⟩

theorem c4_outputs_reference_known_identities_witness :
    (∀ e ∈ ([] : List ImportEdge),
      e.src_merge_hash ∈ ["MA"] ∧ e.dst_merge_hash ∈ ["MA"]) ∧
    (∀ row ∈ ([⟨"MA", "HA", ["a", "ts"]⟩] : List KeywordRow),
      row.merge_hash ∈ ["MA"]) :=
  c4_outputs_reference_known_identities ["MA"]
    [⟨"a.ts", ".ts"⟩, ⟨"b.ts", ".ts"⟩]
    (fun p => if p = "a.ts" then ("MA", "HA")
              else if p = "b.ts" then ("MB", "HB") else ("", ""))
    (fun p => if p = "a.ts" then ["./b"] else [])
    (fun _ => [])
    ⟨[], [⟨"MA", "HA", ["a", "ts"]⟩], true, false⟩ rfl

/-- C5: with an empty known-file set, or an empty scan, `run` returns the
zero-count summary (`relations` and `keywordRows` empty, so both reported
counts are 0), raises nothing (`.ok`), and invokes neither batch
persistence operation (both `persisted` flags are false since both guarded
batch calls are skipped on empty lists). -/
theorem c5_empty_preconditions_zero_run (knownFiles : List String)
    (workingFiles : List WorkingFile) (getPH : String → String × String)
    (importsOf capturesOf : String → List String)
    (h : knownFiles = [] ∨ workingFiles = []) :
    runCore knownFiles workingFiles getPH importsOf capturesOf
      = .ok ⟨[], [], false, false⟩ := by
  rcases h with h | h
  · subst h; rfl
  · subst h
    unfold runCore
    split
    · rfl
    · rfl

theorem c5_empty_preconditions_zero_run_witness :
    runCore [] [⟨"a.ts", ".ts"⟩] (fun _ => ("", "")) (fun _ => []) (fun _ => [])
      = .ok ⟨[], [], false, false⟩ :=
  c5_empty_preconditions_zero_run [] [⟨"a.ts", ".ts"⟩]
    (fun _ => ("", "")) (fun _ => []) (fun _ => []) (Or.inl rfl)

/-! ### Tracking `..` through the resolver -/

theorem splitOnSlash_head_rest (l t : List Char) (ts : List (List Char))
    (h : splitOnSlash l = t :: ts) : ∃ rest, l = t ++ rest := by
  induction l generalizing t ts with
  | nil =>
    simp only [splitOnSlash] at h
    injection h with h1 h2
    subst h1
    exact ⟨[], rfl⟩
  | cons c cs ih =>
    by_cases hc : c = '/'
    · subst hc
      rw [splitOnSlash_slash] at h
      have ht : t = [] := by
        have := (List.cons.injEq _ _ _ _ ▸ h).1
        exact this.symm
      subst ht
      exact ⟨'/' :: cs, rfl⟩
    · rw [splitOnSlash_cons_ns c cs hc] at h
      match hcs : splitOnSlash cs with
      | [] => exact absurd hcs (splitOnSlash_ne_nil cs)
      | t0 :: ts0 =>
        rw [hcs] at h
        simp only [List.cons.injEq] at h
        obtain ⟨rfl, rfl⟩ := h
        obtain ⟨rest, hrest⟩ := ih t0 ts0 hcs
        exact ⟨rest, by simp [hrest]⟩

theorem splitOnSlash_infix (l : List Char) :
    ∀ seg ∈ splitOnSlash l, ∃ pre post, l = pre ++ seg ++ post := by
  induction l with
  | nil =>
    intro seg hseg
    simp only [splitOnSlash, List.mem_singleton] at hseg
    subst hseg
    exact ⟨[], [], rfl⟩
  | cons c cs ih =>
    intro seg hseg
    by_cases hc : c = '/'
    · subst hc
      rw [splitOnSlash_slash] at hseg
      rcases List.mem_cons.mp hseg with rfl | hseg
      · exact ⟨[], '/' :: cs, rfl⟩
      · obtain ⟨pre, post, hpp⟩ := ih seg hseg
        exact ⟨'/' :: pre, post, by simp [hpp]⟩
    · rw [splitOnSlash_cons_ns c cs hc] at hseg
      match hcs : splitOnSlash cs with
      | [] => exact absurd hcs (splitOnSlash_ne_nil cs)
      | t0 :: ts0 =>
        rw [hcs] at hseg
        rcases List.mem_cons.mp hseg with rfl | hseg
        · obtain ⟨rest, hrest⟩ := splitOnSlash_head_rest cs t0 ts0 hcs
          exact ⟨[], rest, by simp [hrest]⟩
        · obtain ⟨pre, post, hpp⟩ := ih seg (by rw [hcs]; exact List.mem_cons_of_mem t0 hseg)
          exact ⟨c :: pre, post, by simp [hpp]⟩

/-- A `..` contained in a string lies within one `/`-separated segment. -/
theorem hasDDL_segment (l : List Char) (h : hasDDL l = true) :
    ∃ seg ∈ splitOnSlash l, hasDDL seg = true := by
  induction l with
  | nil => simp [hasDDL] at h
  | cons c cs ih =>
    cases cs with
    | nil => simp [hasDDL] at h
    | cons b rest =>
      simp only [hasDDL, Bool.or_eq_true, Bool.and_eq_true, decide_eq_true_eq] at h
      rcases h with ⟨hc, hb⟩ | h
      · subst hc; subst hb
        have hcns : ¬(('.' : Char) = '/') := by decide
        rw [splitOnSlash_cons_ns '.' ('.' :: rest) hcns]
        match hcs : splitOnSlash ('.' :: rest) with
        | [] => exact absurd hcs (splitOnSlash_ne_nil _)
        | t0 :: ts0 =>
          rw [splitOnSlash_cons_ns '.' rest hcns] at hcs
          match hcs2 : splitOnSlash rest with
          | [] => exact absurd hcs2 (splitOnSlash_ne_nil _)
          | t1 :: ts1 =>
            rw [hcs2] at hcs
            simp only [List.cons.injEq] at hcs
            obtain ⟨rfl, rfl⟩ := hcs
            refine ⟨'.' :: '.' :: t1, List.mem_cons_self _ _, ?_⟩
            simp [hasDDL]
      · obtain ⟨seg, hsegmem, hsegdd⟩ := ih h
        by_cases hc : c = '/'
        · subst hc
          rw [splitOnSlash_slash]
          exact ⟨seg, List.mem_cons_of_mem _ hsegmem, hsegdd⟩
        · rw [splitOnSlash_cons_ns c (b :: rest) hc]
          match hcs : splitOnSlash (b :: rest) with
          | [] => exact absurd hcs (splitOnSlash_ne_nil _)
          | t0 :: ts0 =>
            rw [hcs] at hsegmem
            rcases List.mem_cons.mp hsegmem with rfl | hsegmem
            · exact ⟨c :: seg, List.mem_cons_self _ _, hasDDL_cons_of_tail c seg hsegdd⟩
            · exact ⟨seg, List.mem_cons_of_mem _ hsegmem, hsegdd⟩

/-- A string containing `..` parses to a path one of whose components
contains `..` (such a segment survives the empty/`"."` filter). -/
theorem parsePath_hasDD_part (s : String) (h : hasDD s = true) :
    ∃ part ∈ (parsePath s).parts, hasDDL part.data = true := by
  obtain ⟨seg, hsegmem, hsegdd⟩ := hasDDL_segment s.data h
  refine ⟨String.mk seg, ?_, hsegdd⟩
  unfold parsePath
  simp only [List.mem_filter]
  constructor
  · unfold splitSlashStr
    exact List.mem_map_of_mem String.mk hsegmem
  · obtain ⟨x, y, hxy⟩ := hasDDL_decomp seg hsegdd
    subst hxy
    simp only [Bool.and_eq_true, decide_eq_true_eq]
    constructor
    · intro he
      have hd : x ++ '.' :: '.' :: y = [] := congrArg String.data he
      simp at hd
    · intro he
      have hd : x ++ '.' :: '.' :: y = ['.'] := congrArg String.data he
      have hlen := congrArg List.length hd
      simp only [List.length_append, List.length_cons, List.length_nil] at hlen
      omega

theorem joinSlash_hasDD (parts : List String) (part : String)
    (hm : part ∈ parts) (hdd : hasDDL part.data = true) :
    hasDD (joinSlash parts) = true := by
  induction parts with
  | nil => exact absurd hm (List.not_mem_nil part)
  | cons p ps ih =>
    cases ps with
    | nil =>
      simp only [List.mem_singleton] at hm
      subst hm
      exact hdd
    | cons p2 ps2 =>
      rcases List.mem_cons.mp hm with rfl | hm
      · show hasDDL (part ++ "/" ++ joinSlash (p2 :: ps2)).data = true
        rw [string_data_append]
        exact hasDDL_append_left _ _ (by rw [string_data_append]; exact hasDDL_append_left _ _ hdd)
      · show hasDDL (p ++ "/" ++ joinSlash (p2 :: ps2)).data = true
        rw [string_data_append]
        exact hasDDL_append_right _ _ (ih hm)

theorem posix_hasDD (p : PyPath) (part : String) (hm : part ∈ p.parts)
    (hdd : hasDDL part.data = true) : hasDD p.posix = true := by
  unfold PyPath.posix
  split
  · show hasDDL ("/" ++ joinSlash p.parts).data = true
    rw [string_data_append]
    exact hasDDL_append_right _ _ (joinSlash_hasDD p.parts part hm hdd)
  · split
    · rename_i hnil
      rw [hnil] at hm
      exact absurd hm (List.not_mem_nil part)
    · exact joinSlash_hasDD p.parts part hm hdd

theorem hasDDL_contains_dot (l : List Char) (h : hasDDL l = true) :
    l.contains '.' = true := by
  obtain ⟨x, y, hxy⟩ := hasDDL_decomp l h
  subst hxy
  simp

/-- Replacing the final suffix with `.php` keeps a `..` that the name
contains: either the `..` sits before the last dot and is kept, or the
kept part ends with a dot and the appended `.php` recreates the pair. -/
theorem pyWithSuffixName_hasDD (name : String) (hdd : hasDDL name.data = true) :
    hasDDL (pyWithSuffixName name ".php").data = true := by
  unfold pyWithSuffixName
  match hsplit : splitLastDot name.data with
  | none =>
    rw [string_data_append]
    exact hasDDL_append_left _ _ hdd
  | some (a, b) =>
    obtain ⟨heq, hnd⟩ := (splitLastDot_spec name.data).1 a b hsplit
    simp only []
    by_cases hab : a ≠ [] ∧ b ≠ []
    · rw [if_pos hab]
      rw [string_data_append]
      rw [heq] at hdd
      rcases hasDDL_append_cases a ('.' :: b) hdd with h1 | h1 | ⟨h1, h2⟩
      · exact hasDDL_append_left _ _ h1
      · exfalso
        cases hb : b with
        | nil =>
          rw [hb] at h1
          simp [hasDDL] at h1
        | cons b0 brest =>
          rw [hb] at h1
          simp only [hasDDL, Bool.or_eq_true, Bool.and_eq_true, decide_eq_true_eq] at h1
          rcases h1 with ⟨_, hb0⟩ | h1
          · subst hb0
            rw [hb] at hnd
            simp [List.contains_cons] at hnd
          · have hcd := hasDDL_contains_dot _ h1
            rw [hb] at hnd
            simp only [List.contains_cons, Bool.or_eq_false_iff] at hnd
            simp only [List.contains_cons, hnd.1, hnd.2, Bool.or_self] at hcd
            exact Bool.noConfusion hcd
      · obtain ⟨a2, ha2⟩ := List.getLast?_eq_some_iff.mp h1
        subst ha2
        show hasDDL ((a2 ++ ['.']) ++ ('.' :: 'p' :: 'h' :: 'p' :: [])) = true
        rw [List.append_assoc]
        exact hasDDL_explicit a2 _
    · rw [if_neg hab]
      rw [string_data_append]
      exact hasDDL_append_left _ _ hdd

theorem withSuffix_hasDD_part (p : PyPath) (part : String) (hm : part ∈ p.parts)
    (hdd : hasDDL part.data = true) :
    ∃ q ∈ (p.withSuffix ".php").parts, hasDDL q.data = true := by
  unfold PyPath.withSuffix
  have hne : p.parts ≠ [] := by
    intro h; rw [h] at hm; exact absurd hm (List.not_mem_nil part)
  have hsplit : p.parts = p.parts.dropLast ++ [p.parts.getLast hne] :=
    (List.dropLast_append_getLast hne).symm
  have hname : p.name = p.parts.getLast hne := by
    unfold PyPath.name
    rw [List.getLast?_eq_getLast p.parts hne]
    rfl
  rw [hsplit] at hm
  rcases List.mem_append.mp hm with hm | hm
  · exact ⟨part, List.mem_append_left _ hm, hdd⟩
  · simp only [List.mem_singleton] at hm
    refine ⟨pyWithSuffixName p.name ".php", List.mem_append_right _ (by simp), ?_⟩
    apply pyWithSuffixName_hasDD
    rw [hname, ← hm]
    exact hdd

theorem join_parts_of_rel (p : PyPath) (s : String)
    (habs : (parsePath s).absolute = false) :
    (p.join s).parts = p.parts ++ (parsePath s).parts := by
  unfold PyPath.join
  rw [if_neg (by rw [habs]; exact Bool.false_ne_true)]

theorem join_hasDD_part_left (p : PyPath) (s : String) (part : String)
    (hm : part ∈ p.parts) (hdd : hasDDL part.data = true)
    (habs : (parsePath s).absolute = false) :
    ∃ q ∈ (p.join s).parts, hasDDL q.data = true := by
  rw [join_parts_of_rel p s habs]
  exact ⟨part, List.mem_append_left _ hm, hdd⟩

theorem join_hasDD_part_right (p : PyPath) (s : String) (part : String)
    (hm : part ∈ (parsePath s).parts) (hdd : hasDDL part.data = true) :
    ∃ q ∈ (p.join s).parts, hasDDL q.data = true := by
  simp only [PyPath.join]
  split
  · exact ⟨part, hm, hdd⟩
  · exact ⟨part, List.mem_append_right _ hm, hdd⟩

/-- Every candidate generated from a base path containing `..` itself
contains `..`: an explicit extension keeps the reparsed base, appending an
extension extends the final component, and index candidates append a new
component. -/
theorem candidatePaths_hasDD (s : String) (hdd : hasDD s = true) :
    ∀ c ∈ candidatePaths s, hasDD c = true := by
  intro c hc
  simp only [candidatePaths] at hc
  split at hc
  · simp only [List.mem_singleton] at hc
    subst hc
    obtain ⟨part, hm, hp⟩ := parsePath_hasDD_part s hdd
    exact posix_hasDD _ part hm hp
  · rw [List.mem_append] at hc
    rcases hc with hc | hc
    · rw [List.mem_map] at hc
      obtain ⟨e, _, rfl⟩ := hc
      show hasDDL (s ++ e).data = true
      rw [string_data_append]
      exact hasDDL_append_left _ _ hdd
    · rw [List.mem_map] at hc
      obtain ⟨e, he, rfl⟩ := hc
      obtain ⟨part, hm, hp⟩ := parsePath_hasDD_part s hdd
      have habs : (parsePath ("index" ++ e)).absolute = false := by
        unfold parsePath
        show strStarts ("index" ++ e) "/" = false
        unfold strStarts
        rw [string_data_append]
        rfl
      obtain ⟨q, hq, hqdd⟩ := join_hasDD_part_left (parsePath s) ("index" ++ e) part hm hp habs
      exact posix_hasDD _ q hq hqdd

theorem splitSlashStr_dd_hasDD (s : String) (h : ".." ∈ splitSlashStr s) :
    hasDD s = true := by
  unfold splitSlashStr at h
  rw [List.mem_map] at h
  obtain ⟨seg, hsegmem, hmk⟩ := h
  have hseg : seg = ['.', '.'] := congrArg String.data hmk
  subst hseg
  obtain ⟨pre, post, hpp⟩ := splitOnSlash_infix s.data _ hsegmem
  show hasDDL s.data = true
  rw [hpp]
  have hre : pre ++ ['.', '.'] ++ post = pre ++ '.' :: '.' :: post := by simp
  rw [hre]
  exact hasDDL_explicit pre post

theorem hasDD_map_bs (l : List Char) (h : hasDDL l = true) :
    hasDDL (l.map (fun c => if c = '\\' then '/' else c)) = true := by
  obtain ⟨x, y, hxy⟩ := hasDDL_decomp l h
  subst hxy
  rw [List.map_append]
  simp only [List.map_cons]
  have hdot : (if ('.' : Char) = '\\' then '/' else '.') = '.' := rfl
  rw [hdot]
  exact hasDDL_explicit _ _

theorem strDrop1_hasDD (s : String) (hdd : hasDD s = true)
    (hne : strStarts s "/" = true) : hasDD (strDrop1 s) = true := by
  obtain ⟨rest, hrest⟩ := strStarts_data s "/" hne
  have hrest2 : s.data = '/' :: rest := by simpa using hrest
  obtain ⟨x, y, hxy⟩ := hasDDL_decomp s.data hdd
  show hasDDL (s.data.drop 1) = true
  rw [hrest2] at hxy ⊢
  cases x with
  | nil => simp at hxy
  | cons x0 xs =>
    simp only [List.cons_append, List.cons.injEq] at hxy
    obtain ⟨_, hxy2⟩ := hxy
    simp only [List.drop_succ_cons, List.drop_zero]
    rw [hxy2]
    exact hasDDL_explicit xs y

theorem firstHit_none_of (cands K : List String)
    (hc : ∀ c ∈ cands, hasDD c = true) (hK : ∀ p ∈ K, hasDD p = false) :
    firstHit cands K = none := by
  cases hfh : firstHit cands K with
  | none => rfl
  | some c =>
    have h1 := firstHit_mem cands K c hfh
    have h2 := firstHit_mem_cands cands K c hfh
    have h3 := hK c h1
    rw [hc c h2] at h3
    exact Bool.noConfusion h3

theorem generalResolve_dd_none (rel cleaned : String) (K : List String)
    (hdd : hasDD cleaned = true) (hK : ∀ p ∈ K, hasDD p = false) :
    generalResolve rel cleaned K = none := by
  have hrcdd : hasDD (if strStarts cleaned "/" = true then strDrop1 cleaned
      else cleaned) = true := by
    split
    · rename_i hst
      exact strDrop1_hasDD cleaned hdd hst
    · exact hdd
  simp only [generalResolve]
  apply firstHit_none_of _ K _ hK
  apply candidatePaths_hasDD
  obtain ⟨part, hm, hp⟩ := parsePath_hasDD_part _ hrcdd
  obtain ⟨q, hq, hqdd⟩ := join_hasDD_part_right (parsePath rel).parent _ part hm hp
  exact posix_hasDD _ q hq hqdd

/-- C10 counterexample: the specifier `./a/..` from a root file, with the
scanned path set `{m.ts, a/...ts}` containing no `..` component, resolves
to `a/...ts`: the base path `a/..` carries no `Path` suffix, so the code
appends `.ts` to the raw string, producing `a/...ts` — the claim says any
specifier whose cleaned form contains a `..` segment must stay unresolved
against a normalized scanned set. -/
theorem c10_counterexample :
    ".." ∈ splitSlashStr (cleanedOf "./a/..") ∧
    (∀ p ∈ ["m.ts", "a/...ts"], ¬ ".." ∈ splitSlashStr p) ∧
    resolveTarget "m.ts" ".ts" "./a/.." ["m.ts", "a/...ts"] = .ok (some "a/...ts") := by
  refine ⟨?_, ?_, rfl⟩
  · decide
  · decide

/-- C10 (amended): the resolver performs no `..` normalization — for every
importer and every specifier whose cleaned form contains a `..` path
segment, the resolver returns unresolved, provided the scanned path set
contains no path with two consecutive dots anywhere (in particular no `..`
component and no component such as `...ts` that the extension-appending
candidates could otherwise hit). -/
theorem c10_dotdot_never_resolves (rel ext target : String) (K : List String)
    (hseg : ".." ∈ splitSlashStr (cleanedOf target))
    (hK : ∀ p ∈ K, hasDD p = false) :
    resolveTarget rel ext target K = .ok none := by
  have hdd : hasDD (cleanedOf target) = true := splitSlashStr_dd_hasDD _ hseg
  have hdd2 : hasDD (pyStripQuotes (pyStrip target)) = true := hdd
  simp only [resolveTarget]
  split
  · rfl
  · split
    · rfl
    · split
      · rfl
      · split
        · -- the PHP namespace branch
          have hgdd : hasDD (String.mk ((pyStripQuotes (pyStrip target)).data.map
              (fun c => if c = '\\' then '/' else c))) = true := by
            show hasDDL ((pyStripQuotes (pyStrip target)).data.map
              (fun c => if c = '\\' then '/' else c)) = true
            exact hasDD_map_bs _ hdd2
          obtain ⟨part, hm, hp⟩ :=
            parsePath_hasDD_part (String.mk ((pyStripQuotes (pyStrip target)).data.map
              (fun c => if c = '\\' then '/' else c))) hgdd
          split
          · rename_i hnil
            exfalso
            rw [show phpNamespaceGuess (pyStripQuotes (pyStrip target))
                = parsePath (String.mk ((pyStripQuotes (pyStrip target)).data.map
                  (fun c => if c = '\\' then '/' else c))) from rfl] at hnil
            rw [hnil] at hm
            exact absurd hm (List.not_mem_nil part)
          · obtain ⟨q1, hq1, hq1dd⟩ := withSuffix_hasDD_part
              (phpNamespaceGuess (pyStripQuotes (pyStrip target))) part hm hp
            have hc1dd : hasDD ((phpNamespaceGuess (pyStripQuotes
                (pyStrip target))).withSuffix ".php").posix = true :=
              posix_hasDD _ q1 hq1 hq1dd
            obtain ⟨q2, hq2, hq2dd⟩ := join_hasDD_part_left
              (phpNamespaceGuess (pyStripQuotes (pyStrip target))) "index.php" part hm hp
              (by rfl)
            have hc2dd : hasDD ((phpNamespaceGuess (pyStripQuotes
                (pyStrip target))).join "index.php").posix = true :=
              posix_hasDD _ q2 hq2 hq2dd
            split
            · rename_i hcont
              exfalso
              have hmem := List.mem_of_elem_eq_true hcont
              have := hK _ hmem
              rw [hc1dd] at this
              exact Bool.noConfusion this
            · split
              · rename_i hcont
                exfalso
                have hmem := List.mem_of_elem_eq_true hcont
                have := hK _ hmem
                rw [hc2dd] at this
                exact Bool.noConfusion this
              · rw [generalResolve_dd_none rel _ K hdd2 hK]
        · rw [generalResolve_dd_none rel _ K hdd2 hK]

theorem c10_dotdot_never_resolves_witness :
    resolveTarget "src/m.ts" ".ts" "../util" ["src/m.ts", "util.ts"] = .ok none :=
  c10_dotdot_never_resolves "src/m.ts" ".ts" "../util" ["src/m.ts", "util.ts"]
    (by decide) (by decide)

/-! ### Claims C2, C3, C7, C8 -/

/-- When the PHP branch is not entered, `_resolve_target` is exactly the
general resolution of the cleaned specifier. -/
theorem resolveTarget_eq_general (rel ext target : String) (K : List String)
    (hne : target ≠ "")
    (hurl : (strStarts target "http://" || strStarts target "https://") = false)
    (hcl : cleanedOf target ≠ "")
    (hphp : (ext = ".php" && (cleanedOf target).data.contains '\\' &&
      !(strStarts (cleanedOf target) "./" || strStarts (cleanedOf target) "/")) = false) :
    resolveTarget rel ext target K = .ok (generalResolve rel (cleanedOf target) K) := by
  have hcl2 : pyStripQuotes (pyStrip target) ≠ "" := hcl
  have hphp2 : (decide (ext = ".php") && (pyStripQuotes (pyStrip target)).data.contains '\\' &&
      !(strStarts (pyStripQuotes (pyStrip target)) "./" ||
        strStarts (pyStripQuotes (pyStrip target)) "/")) = false := hphp
  simp only [resolveTarget]
  rw [if_neg hne, if_neg (ne_true_of_eq_false hurl), if_neg hcl2,
    if_neg (ne_true_of_eq_false hphp2)]
  rfl

/-- C2 counterexample: importer `src/a.ts`, specifier `/b`, scanned set
`{b.ts, src/a.ts}`.  Under the claim the base candidate is `b` — the
specifier minus the root marker, not joined to the importer's
directory — and its first candidate `b.ts` is known, so resolution would
succeed; the code instead joins the stripped specifier to `src`, producing
base `src/b`, and resolution fails. -/
theorem c2_counterexample :
    ((parsePath "src/a.ts").parent.join (strDrop1 "/b")).posix = "src/b" ∧
    firstHit (candidatePaths "b") ["b.ts", "src/a.ts"] = some "b.ts" ∧
    resolveTarget "src/a.ts" ".ts" "/b" ["b.ts", "src/a.ts"] = .ok none :=
  ⟨rfl, rfl, rfl⟩

/-- C2 (amended): for every non-empty non-URL specifier outside the PHP
namespace branch, the base candidate path is formed by JOINING to the
importing file's directory in every case: a specifier starting with the
path-root marker `/` merely loses that one character and is then joined
like any other specifier, so it behaves repository-root-relative only when
the importer sits at the repository root. -/
theorem c2_base_path_always_joined (rel ext target : String) (K : List String)
    (hne : target ≠ "")
    (hurl : (strStarts target "http://" || strStarts target "https://") = false)
    (hcl : cleanedOf target ≠ "")
    (hphp : (ext = ".php" && (cleanedOf target).data.contains '\\' &&
      !(strStarts (cleanedOf target) "./" || strStarts (cleanedOf target) "/")) = false) :
    resolveTarget rel ext target K =
      .ok (firstHit (candidatePaths
        (((parsePath rel).parent.join
          (if strStarts (cleanedOf target) "/" then strDrop1 (cleanedOf target)
           else cleanedOf target)).posix)) K) := by
  rw [resolveTarget_eq_general rel ext target K hne hurl hcl hphp]
  rfl

theorem c2_base_path_always_joined_witness :
    resolveTarget "src/a.ts" ".ts" "/lib/util" ["src/lib/util.ts"] =
      .ok (firstHit (candidatePaths
        (((parsePath "src/a.ts").parent.join
          (if strStarts (cleanedOf "/lib/util") "/" then strDrop1 (cleanedOf "/lib/util")
           else cleanedOf "/lib/util")).posix)) ["src/lib/util.ts"]) :=
  c2_base_path_always_joined "src/a.ts" ".ts" "/lib/util" ["src/lib/util.ts"]
    (by decide) (by decide) (by decide) (by decide)

/-- C3 counterexample: `.bar` is not one of the recognized resolver
extensions, so under the claim the base `foo.bar` would be expanded into
`foo.bar.ts`, ..., `foo.bar/index.php`; the code short-circuits on ANY
nonempty `Path` suffix, keeps `foo.bar` as the only candidate, and
therefore fails to resolve even though `foo.bar.ts` is scanned. -/
theorem c3_counterexample :
    ".bar" ∉ resolverExts ∧
    candidatePaths "foo.bar" = ["foo.bar"] ∧
    resolveTarget "a.ts" ".ts" "./foo.bar" ["foo.bar.ts", "a.ts"] = .ok none :=
  ⟨by decide, rfl, rfl⟩

/-- C3 (amended): if the base candidate path carries ANY extension (a
nonempty `Path.suffix`, recognized or not) it is the only candidate tried;
otherwise the candidates are exactly the base with
`.ts, .tsx, .js, .jsx, .mjs, .cjs, .php` appended in that order followed
by `index.<ext>` inside the base directory in the same order, and the
resolver returns the first candidate present in the scanned set — in
particular `./foo` from a sibling resolves to `foo.ts` when both `foo.ts`
and `foo.js` are known. -/
theorem c3_candidate_order_any_suffix (rel_path : String) :
    (pySuffix (parsePath rel_path).name ≠ "" →
      candidatePaths rel_path = [(parsePath rel_path).posix]) ∧
    (pySuffix (parsePath rel_path).name = "" →
      candidatePaths rel_path =
        [rel_path ++ ".ts", rel_path ++ ".tsx", rel_path ++ ".js", rel_path ++ ".jsx",
         rel_path ++ ".mjs", rel_path ++ ".cjs", rel_path ++ ".php",
         ((parsePath rel_path).join "index.ts").posix,
         ((parsePath rel_path).join "index.tsx").posix,
         ((parsePath rel_path).join "index.js").posix,
         ((parsePath rel_path).join "index.jsx").posix,
         ((parsePath rel_path).join "index.mjs").posix,
         ((parsePath rel_path).join "index.cjs").posix,
         ((parsePath rel_path).join "index.php").posix]) ∧
    resolveTarget "b.ts" ".ts" "./foo" ["foo.ts", "foo.js", "b.ts"] = .ok (some "foo.ts") := by
  refine ⟨?_, ?_, rfl⟩
  · intro h
    simp only [candidatePaths]
    rw [if_pos h]
  · intro h
    simp only [candidatePaths]
    rw [if_neg (fun hh => hh h)]
    rfl

theorem c3_candidate_order_any_suffix_witness :
    candidatePaths "dir/mod.css" = [(parsePath "dir/mod.css").posix] :=
  (c3_candidate_order_any_suffix "dir/mod.css").1 (by decide)

/-- C7 counterexample: a JavaScript file whose language and parser resolve
fine but whose byte read fails.  `read_bytes` sits outside the `try`
block of `_extract_imports`, so the failure propagates instead of
producing an empty import list. -/
theorem c7_counterexample :
    extractImports (some "javascript") true (.error ()) [] [] = .error () := rfl

/-- C7 (amended): import extraction is a soft failure for the language
lookup and the parser acquisition — with no supported language mapping,
or with a parser that cannot be obtained, it returns an empty import list
and never raises (and `parser.parse` itself has no failure path) — but a
failure while READING the file is not contained and propagates out of
`_extract_imports`, so such a file aborts the run. -/
theorem c7_soft_failure_except_read (lang : Option String) (parserOk : Bool)
    (readRes : Except Unit Unit) (jsImports phpImports : List String)
    (h : lang = none ∨ parserOk = false) :
    extractImports lang parserOk readRes jsImports phpImports = .ok [] := by
  rcases h with h | h
  · subst h; rfl
  · subst h
    cases lang with
    | none => rfl
    | some l => rfl

theorem c7_soft_failure_except_read_witness :
    extractImports (some "javascript") false (.error ()) ["x"] ["y"] = .ok [] :=
  c7_soft_failure_except_read (some "javascript") false (.error ()) ["x"] ["y"] (Or.inr rfl)

/-- C8 counterexample: PHP importer, specifier `dir\file.txt` (contains a
namespace separator and starts with neither `./` nor `/`).  The claim's
two candidates are the converted name with a `.php` extension —
`dir/file.txt.php` — and `dir/file.txt/index.php`; neither is scanned, so
under the claim this falls through to general resolution and stays
unresolved.  The code instead REPLACES the `.txt` suffix (`with_suffix`)
and returns `dir/file.php`. -/
theorem c8_counterexample :
    resolveTarget "m.php" ".php" "dir\\file.txt" ["dir/file.php", "m.php"]
      = .ok (some "dir/file.php") ∧
    ("dir/file.txt.php" : String) ∉ (["dir/file.php", "m.php"] : List String) ∧
    ("dir/file.txt/index.php" : String) ∉ (["dir/file.php", "m.php"] : List String) ∧
    ("dir/file.php" : String) ≠ "dir/file.txt.php" :=
  ⟨rfl, by decide, by decide, by decide⟩

/-- C8 (amended): for every PHP importing file and every non-empty non-URL
specifier that contains `\` and starts with neither `./` nor `/`, the code
converts separators to `/` and — provided the conversion has at least one
component — tries exactly two candidates in order: the converted name
with `.php` as its suffix (REPLACING an existing final extension,
appending one otherwise, per `Path.with_suffix`), then the converted name
as a directory containing `index.php`; it returns the first candidate
present among scanned paths and otherwise falls through to general
resolution.  (When the conversion has no components — e.g. specifier
`\` — `with_suffix` raises instead.) -/
theorem c8_php_heuristic_candidates (rel target : String) (K : List String)
    (hne : target ≠ "")
    (hurl : (strStarts target "http://" || strStarts target "https://") = false)
    (hbs : (cleanedOf target).data.contains '\\' = true)
    (hpre : (strStarts (cleanedOf target) "./" || strStarts (cleanedOf target) "/") = false)
    (hparts : (phpNamespaceGuess (cleanedOf target)).parts ≠ []) :
    resolveTarget rel ".php" target K =
      (if K.contains ((phpNamespaceGuess (cleanedOf target)).withSuffix ".php").posix then
        .ok (some ((phpNamespaceGuess (cleanedOf target)).withSuffix ".php").posix)
      else if K.contains ((phpNamespaceGuess (cleanedOf target)).join "index.php").posix then
        .ok (some ((phpNamespaceGuess (cleanedOf target)).join "index.php").posix)
      else .ok (generalResolve rel (cleanedOf target) K)) := by
  have hclne : cleanedOf target ≠ "" := by
    intro h
    rw [h] at hbs
    exact Bool.noConfusion hbs
  have hclne2 : pyStripQuotes (pyStrip target) ≠ "" := hclne
  have hparts2 : ¬(phpNamespaceGuess (pyStripQuotes (pyStrip target))).parts = [] := hparts
  simp only [resolveTarget]
  rw [if_neg hne, if_neg (ne_true_of_eq_false hurl), if_neg hclne2]
  split
  · rfl
  · rename_i hcf
    exfalso
    apply hcf
    have hbs2 : (pyStripQuotes (pyStrip target)).data.contains '\\' = true := hbs
    have hpre2 : (strStarts (pyStripQuotes (pyStrip target)) "./" ||
        strStarts (pyStripQuotes (pyStrip target)) "/") = false := hpre
    rw [hbs2, hpre2]
    rfl

theorem c8_php_heuristic_candidates_witness :
    resolveTarget "m.php" ".php" "App\\Models\\User" ["App/Models/User.php"]
      = .ok (some "App/Models/User.php") := by
  rw [c8_php_heuristic_candidates "m.php" "App\\Models\\User" ["App/Models/User.php"]
    (by decide) (by decide) (by decide) (by decide) (by decide)]
  rfl

/-! ### Claim C9: default-ignored directories and the scanner -/

theorem foldl_nonneg_false (pats : List IgnorePattern) (comps : List String) (acc : Bool)
    (hneg : ∀ p ∈ pats, p.negated = false)
    (h : pats.foldl (fun acc p => if patMatch p comps then !p.negated else acc) acc = false) :
    acc = false ∧ ∀ p ∈ pats, patMatch p comps = false := by
  induction pats generalizing acc with
  | nil => exact ⟨h, by simp⟩
  | cons p ps ih =>
    simp only [List.foldl_cons] at h
    obtain ⟨h1, h2⟩ := ih _ (fun q hq => hneg q (List.mem_cons_of_mem p hq)) h
    by_cases hm : patMatch p comps = true
    · rw [if_pos hm, hneg p (List.mem_cons_self p ps)] at h1
      simp at h1
    · rw [if_neg hm] at h1
      have hm2 : patMatch p comps = false := by
        revert hm
        cases patMatch p comps <;> simp
      refine ⟨h1, ?_⟩
      intro q hq
      rcases List.mem_cons.mp hq with rfl | hq
      · exact hm2
      · exact h2 q hq

theorem matchFile_default_component (extra : List IgnorePattern) (comps : List String)
    (hneg : ∀ p ∈ extra, p.negated = false)
    (h : matchFile (buildIgnoreSpec extra) comps = false) :
    ∀ n ∈ defaultIgnoreNames, comps.contains n = false := by
  unfold buildIgnoreSpec matchFile at h
  rw [List.foldl_append] at h
  obtain ⟨hacc, _⟩ := foldl_nonneg_false extra comps _ hneg h
  obtain ⟨_, hpats⟩ := foldl_nonneg_false defaultPatterns comps false (by decide) hacc
  intro n hn
  have hmem : (⟨false, n, false⟩ : IgnorePattern) ∈ defaultPatterns := by
    unfold defaultPatterns
    exact List.mem_append_right _
      (List.mem_map_of_mem (fun m => (⟨false, m, false⟩ : IgnorePattern)) hn)
  have := hpats ⟨false, n, false⟩ hmem
  simpa [patMatch] using this

mutual
theorem walkTree_no_default (extra : List IgnorePattern)
    (hneg : ∀ p ∈ extra, p.negated = false) :
    ∀ (t : FTree) (relDir : List String), (∀ c ∈ relDir, noSlash c = true) →
    namesOk t = true →
    ∀ wf ∈ walkTree (buildIgnoreSpec extra) relDir t,
      ∃ comps, comps ≠ [] ∧ wf.rel_path = joinSlash comps ∧
        (∀ c ∈ comps, noSlash c = true) ∧
        ∀ n ∈ defaultIgnoreNames, n ∉ comps
  | .node files dirs, relDir, hrel, hok, wf, hwf => by
    rw [walkTree] at hwf
    have hok2 : files.all noSlash = true ∧ dirsOk dirs = true := by
      rw [namesOk] at hok
      exact ⟨(Bool.and_eq_true _ _ ▸ hok).1, (Bool.and_eq_true _ _ ▸ hok).2⟩
    rcases List.mem_append.mp hwf with hf | hd
    · rw [List.mem_filterMap] at hf
      obtain ⟨fn, hfn, hsome⟩ := hf
      split at hsome
      · exact absurd hsome (by simp)
      · rename_i hmf
        split at hsome
        · injection hsome with hwf2
          subst hwf2
          have hmf2 : matchFile (buildIgnoreSpec extra) (relDir ++ [fn]) = false := by
            revert hmf
            cases matchFile (buildIgnoreSpec extra) (relDir ++ [fn]) <;> simp
          refine ⟨relDir ++ [fn], by simp, rfl, ?_, ?_⟩
          · intro c hc
            rcases List.mem_append.mp hc with hc | hc
            · exact hrel c hc
            · simp only [List.mem_singleton] at hc
              subst hc
              exact (List.all_eq_true.mp hok2.1) c hfn
          · intro n hn hmem
            have hfalse := matchFile_default_component extra (relDir ++ [fn]) hneg hmf2 n hn
            have htrue : (relDir ++ [fn]).contains n = true := List.elem_eq_true_of_mem hmem
            rw [htrue] at hfalse
            exact Bool.noConfusion hfalse
        · exact absurd hsome (by simp)
    · exact walkDirs_no_default extra hneg dirs relDir hrel hok2.2 wf hd

theorem walkDirs_no_default (extra : List IgnorePattern)
    (hneg : ∀ p ∈ extra, p.negated = false) :
    ∀ (dirs : DirList) (relDir : List String), (∀ c ∈ relDir, noSlash c = true) →
    dirsOk dirs = true →
    ∀ wf ∈ walkDirs (buildIgnoreSpec extra) relDir dirs,
      ∃ comps, comps ≠ [] ∧ wf.rel_path = joinSlash comps ∧
        (∀ c ∈ comps, noSlash c = true) ∧
        ∀ n ∈ defaultIgnoreNames, n ∉ comps
  | .dnil, relDir, hrel, hok, wf, hwf => by
    rw [walkDirs] at hwf
    exact absurd hwf (List.not_mem_nil wf)
  | .dcons dname t rest, relDir, hrel, hok, wf, hwf => by
    rw [walkDirs] at hwf
    have hok2 : noSlash dname = true ∧ namesOk t = true ∧ dirsOk rest = true := by
      rw [dirsOk] at hok
      simp only [Bool.and_eq_true] at hok
      exact ⟨hok.1.1, hok.1.2, hok.2⟩
    rcases List.mem_append.mp hwf with hl | hr
    · split at hl
      · exact absurd hl (List.not_mem_nil wf)
      · refine walkTree_no_default extra hneg t (relDir ++ [dname]) ?_ hok2.2.1 wf hl
        intro c hc
        rcases List.mem_append.mp hc with hc | hc
        · exact hrel c hc
        · simp only [List.mem_singleton] at hc
          subst hc
          exact hok2.1
    · exact walkDirs_no_default extra hneg rest relDir hrel hok2.2.2 wf hr
end

/-- C9 counterexample: a `!node_modules` line in the repository ignore
file re-includes the default-excluded directory (pathspec last-match
semantics), so a supported file underneath it IS yielded by the scanner
even though its path has the component `node_modules`. -/
theorem c9_counterexample :
    iterWorkingFiles [⟨true, "node_modules", false⟩]
      (.node [] (.dcons "node_modules" (.node ["a.js"] .dnil) .dnil))
    = [⟨"node_modules/a.js", ".js"⟩] := rfl

/-- C9 (amended): for every file whose relative path has a component equal
to a default-excluded directory name, the tree scanner never yields that
file — even if its extension is supported — and it therefore appears in
no edge and no keyword row of the run over the scan, PROVIDED no negation
pattern among the repository/extra ignore lines is present to re-include
it (gitignore-style later lines can override the defaults). -/
theorem c9_default_excluded_not_scanned (extra : List IgnorePattern) (t : FTree)
    (comps : List String) (d : String)
    (hneg : ∀ p ∈ extra, p.negated = false)
    (hok : namesOk t = true)
    (hcomps : ∀ c ∈ comps, noSlash c = true)
    (hd : d ∈ comps) (hdef : d ∈ defaultIgnoreNames) :
    (∀ wf ∈ iterWorkingFiles extra t, wf.rel_path ≠ joinSlash comps) ∧
    (∀ (knownFiles : List String) (getPH : String → String × String)
        (importsOf capturesOf : String → List String) (r : RunResult),
      runCore knownFiles (iterWorkingFiles extra t) getPH importsOf capturesOf = .ok r →
      (∀ row ∈ r.keywordRows, ∃ wf ∈ iterWorkingFiles extra t,
        getPH wf.rel_path = (row.merge_hash, row.hash) ∧ wf.rel_path ≠ joinSlash comps) ∧
      (∀ e ∈ r.relations,
        (∃ wf ∈ iterWorkingFiles extra t,
          getPH wf.rel_path = (e.src_merge_hash, e.src_hash) ∧
          wf.rel_path ≠ joinSlash comps) ∧
        (∃ p ∈ (iterWorkingFiles extra t).map (fun wf => wf.rel_path),
          getPH p = (e.dst_merge_hash, e.dst_hash) ∧ p ≠ joinSlash comps))) := by
  have hnever : ∀ wf ∈ iterWorkingFiles extra t, wf.rel_path ≠ joinSlash comps := by
    intro wf hwf heq
    obtain ⟨cw, hcwne, hjoin, hcwns, hnodef⟩ :=
      walkTree_no_default extra hneg t [] (by simp) hok wf hwf
    have hj2 : joinSlash cw = joinSlash comps := by rw [← hjoin, heq]
    have hcne : comps ≠ [] := List.ne_nil_of_mem hd
    have hceq : cw = comps := joinSlash_injective cw comps hcwne hcne hcwns hcomps hj2
    exact hnodef d hdef (hceq ▸ hd)
  refine ⟨hnever, ?_⟩
  intro knownFiles getPH importsOf capturesOf r hrun
  obtain ⟨_, c2, c3⟩ := runCore_spec knownFiles (iterWorkingFiles extra t)
    getPH importsOf capturesOf r hrun
  constructor
  · intro row hr
    obtain ⟨_, wf, hwfmem, hph⟩ := c3 row hr
    exact ⟨wf, hwfmem, hph, hnever wf hwfmem⟩
  · intro e he
    obtain ⟨_, _, ⟨wf, hwfmem, hph⟩, ⟨p, hpmem, hpph⟩⟩ := c2 e he
    refine ⟨⟨wf, hwfmem, hph, hnever wf hwfmem⟩, ⟨p, hpmem, hpph, ?_⟩⟩
    rw [List.mem_map] at hpmem
    obtain ⟨wf2, hwf2mem, hwf2eq⟩ := hpmem
    rw [← hwf2eq]
    exact hnever wf2 hwf2mem

theorem c9_default_excluded_not_scanned_witness :
    (∀ wf ∈ iterWorkingFiles [] (.node ["a.js"] .dnil),
      wf.rel_path ≠ joinSlash ["node_modules", "x.js"]) ∧
    (∀ (knownFiles : List String) (getPH : String → String × String)
        (importsOf capturesOf : String → List String) (r : RunResult),
      runCore knownFiles (iterWorkingFiles [] (.node ["a.js"] .dnil))
        getPH importsOf capturesOf = .ok r →
      (∀ row ∈ r.keywordRows, ∃ wf ∈ iterWorkingFiles [] (.node ["a.js"] .dnil),
        getPH wf.rel_path = (row.merge_hash, row.hash) ∧
        wf.rel_path ≠ joinSlash ["node_modules", "x.js"]) ∧
      (∀ e ∈ r.relations,
        (∃ wf ∈ iterWorkingFiles [] (.node ["a.js"] .dnil),
          getPH wf.rel_path = (e.src_merge_hash, e.src_hash) ∧
          wf.rel_path ≠ joinSlash ["node_modules", "x.js"]) ∧
        (∃ p ∈ (iterWorkingFiles [] (.node ["a.js"] .dnil)).map (fun wf => wf.rel_path),
          getPH p = (e.dst_merge_hash, e.dst_hash) ∧
          p ≠ joinSlash ["node_modules", "x.js"]))) :=
  c9_default_excluded_not_scanned [] (.node ["a.js"] .dnil)
    ["node_modules", "x.js"] "node_modules"
    (by simp) (by decide) (by decide) (by decide) (by decide)

theorem c6_keyword_list_shape_witness :
    (extractKeywords "src/app/userService.ts" ["UserService", "fetchUser"]).length
      ≤ keywordLimit :=
  (c6_keyword_list_shape "src/app/userService.ts" ["UserService", "fetchUser"]).1
